import Mathlib

/-!
Verification of the course-catalog program (ProjectTwo.cpp): its CSV-like
record parser, fixed-size chained hash table, file validator, and quicksort.
Each definition below is a shallow embedding of the corresponding C++
function; line numbers refer to src/ProjectTwo.cpp.
-/

/-- Course record (struct Course, lines 9-27): number, title, prerequisites. -/
structure Course where
  number : String
  title : String
  prerequisites : List String
  deriving DecidableEq, Repr

/-- Default-constructed Course (the C++ expression Course with empty braces):
empty number, empty title, no prerequisites. -/
instance : Inhabited Course := ⟨⟨"", "", []⟩⟩

/-- State of the per-row field loop of loadFromCSV (lines 117-145) and of
ValidateFile (lines 342-366): count of nonempty fields consumed so far, the
number (field 0), title (field 1), prerequisite fields (fields 2..), and the
remaining characters after the last consumed comma. -/
structure RowScan where
  fc : Nat
  number : String
  title : String
  prereqs : List String
  rest : List Char
  deriving DecidableEq, Repr

/-- Handling of one comma-terminated field (lines 126-143 and 349-364): an
empty field is skipped without advancing the field count; otherwise the
switch on field_count assigns field 0 to the number, field 1 to the title,
and later fields to the prerequisites, and the count is incremented. -/
def stepField (st : RowScan) (f : List Char) : RowScan :=
  if f = [] then st
  else
    match st.fc with
    | 0 => { st with fc := 1, number := String.mk f }
    | 1 => { st with fc := 2, title := String.mk f }
    | n + 2 => { st with fc := n + 3, prereqs := st.prereqs ++ [String.mk f] }

/-- Column loop (lines 124-145 and 347-366): the C++ code repeatedly locates
the next comma and takes the substring since the previous one; here the same
fields are produced by accumulating characters until each comma.  The
remainder after the last comma is recorded in rest when the row is
exhausted. -/
def parseLoop : List Char → List Char → RowScan → RowScan
  | [], acc, st => { st with rest := acc }
  | c :: cs, acc, st =>
    if c = ',' then parseLoop cs [] (stepField st acc)
    else parseLoop cs (acc ++ [c]) st

/-- Scan of one row starting from the initial loop state. -/
def rowScan (row : List Char) : RowScan :=
  parseLoop row [] ⟨0, "", "", [], []⟩

/-- Capture of the tail after the last comma (lines 146-150 and 367-371).
The C++ guard compares size_t values, so for an empty row the subtraction
in row.length() - 1 wraps around and the guard holds, capturing an empty
string; otherwise the guard holds exactly when the tail has at least two
characters, and the captured substring drops the final character because the
count is row.length() - start - 1. -/
def finalField (row rest : List Char) : Option (List Char) :=
  if row.length = 0 then some []
  else if 1 < rest.length then some rest.dropLast
  else none

/-- Record built from one row by loadFromCSV (lines 116-152): positional
fields from the column loop, with the captured tail appended to the
prerequisites (lines 146-150). -/
def parseRow (row : List Char) : Course :=
  let st := rowScan row
  { number := st.number
    title := st.title
    prerequisites := st.prereqs ++ ((finalField row st.rest).map String.mk).toList }

/-- Row iteration (line 116 and line 341): getline with delimiter a newline
reads characters up to the next newline, consuming it, and fails at end of
input, so a trailing newline does not produce an extra empty row. -/
def getlineSplit : List Char → List (List Char)
  | [] => []
  | c :: cs =>
    if c = '\n' then [] :: getlineSplit cs
    else
      match getlineSplit cs with
      | [] => [[c]]
      | r :: rs => (c :: r) :: rs

/-- Row loop of ValidateFile (lines 340-385): scan rows in order, collecting
the course-number set (field 0 of each row, line 356) and the prerequisite
set (fields 2.. at line 361 plus the captured tail at line 370); abort with
-1 as soon as a row has fewer than two nonempty comma-terminated fields
(lines 373-376); after the loop, fail with -1 when some collected
prerequisite is not a collected course number (lines 380-385), and otherwise
return the row count. -/
def validateGo : List (List Char) → List String → List String → Nat → Int
  | [], courses, prereqs, count =>
    if prereqs.all (fun p => courses.contains p) then (count : Int) else -1
  | r :: rs, courses, prereqs, count =>
    if (rowScan r).fc < 2 then -1
    else
      validateGo rs
        (if 1 ≤ (rowScan r).fc then courses ++ [(rowScan r).number] else courses)
        (prereqs ++ (rowScan r).prereqs
          ++ ((finalField r (rowScan r).rest).map String.mk).toList)
        (count + 1)

/-- ValidateFile (lines 327-387), with the file contents passed in place of
the file path: -1 on bad formatting, otherwise the number of rows. -/
def ValidateFile (f : String) : Int :=
  validateGo (getlineSplit f.data) [] [] 0

/-- Hash function (lines 163-169).  The local accumulator sum is declared
without an initializer (line 164), so the value it starts from is whatever
happened to be in that stack slot; the parameter init makes that unspecified
starting value explicit.  Each loop iteration adds the character code times
31 to the power of the position, reduced modulo the table size, and the
final result is reduced modulo the table size again.  (The cast of pow to
int additionally overflows for positions seven and up; that separate issue
is outside this model, which uses exact arithmetic.) -/
def hashCpp (init : Nat) (key : String) (size : Nat) : Nat :=
  (init + ((List.range key.length).map
      (fun i => ((key.data.getD i default).toNat * 31 ^ i) % size)).sum) % size

/-- Table contents: one list of records per slot, in slot order.  An empty
slot (head key UINT_MAX, no chain) is the empty list; an occupied slot is
the inline head record followed by its overflow chain in chain order. -/
abbrev Table := List (List Course)

/-- Freshly constructed table of a given size (lines 68-80): every slot
empty. -/
def emptyTable (n : Nat) : Table :=
  List.replicate n []

/-- HashTable insert (lines 176-191), with the slot index given by the fixed
function h: an empty slot receives the record as its head, otherwise the
record is appended as a new node at the end of the slot chain; both cases
append the record at the end of the slot list. -/
def insertT (h : String → Nat) (t : Table) (c : Course) : Table :=
  t.set (h c.number) ((t.getD (h c.number) []) ++ [c])

/-- HashTable search (lines 256-278): check the head, then scan the chain,
returning the first record whose number matches; when the slot is empty or
no node matches, return a default-constructed Course (line 277), whose
number and title are both the empty string. -/
def searchT (h : String → Nat) (t : Table) (n : String) : Course :=
  (((t.getD (h n) []).find? (fun c => c.number = n)).getD default)

/-- HashTable toVector (lines 198-215): every slot in index order, for each
occupied slot the head then the chain in chain order. -/
def toVectorT (t : Table) : List Course :=
  t.flatten

/-- Chain scan of HashTable remove (lines 238-247), acting on the list of
nodes after the current node.  On a match the matching node is unlinked and
the scan pointer is advanced to the node after it (line 246), so that next
node is never examined; when the unlinked node was the last one, the
advanced pointer is null and the loop condition at line 239 dereferences it,
modeled as an error result. -/
def removeScan (n : String) : List Course → Except Unit (List Course)
  | [] => Except.ok []
  | c :: rest =>
    if c.number = n then
      match rest with
      | [] => Except.error ()
      | d :: rest2 => (removeScan n rest2).map (fun out => d :: out)
    else (removeScan n rest).map (fun out => c :: out)

/-- HashTable remove at slot level (lines 226-248): an empty slot is a
no-op; a matching head is replaced by the next chain node, or the slot is
emptied (lines 229-235); otherwise the chain is scanned. -/
def removeSlot (n : String) : List Course → Except Unit (List Course)
  | [] => Except.ok []
  | hd :: chain =>
    if hd.number = n then Except.ok chain
    else (removeScan n chain).map (fun out => hd :: out)

/-- HashTable remove (lines 222-249) on the whole table. -/
def removeT (h : String → Nat) (t : Table) (n : String) :
    Except Unit Table :=
  (removeSlot n (t.getD (h n) [])).map (fun s => t.set (h n) s)

/-! Declarative description of the column loop, used to state what the
parser does with the final field. -/

/-- Comma split of a row keeping every segment, including empty ones: the
comma-terminated segments are all elements but the last, and the last
element is the remainder after the final comma. -/
def splitAll : List Char → List (List Char)
  | [] => [[]]
  | c :: cs =>
    if c = ',' then [] :: splitAll cs
    else
      match splitAll cs with
      | [] => [[c]]
      | s :: ss => (c :: s) :: ss

/-- Nonempty segments of a segment list, as strings, in order. -/
def strFields (fs : List (List Char)) : List String :=
  (fs.filter (fun f => f ≠ [])).map String.mk

/-- Nonempty comma-terminated fields of a row, in order: these are the
fields the column loop feeds through its switch. -/
def termFields (row : List Char) : List String :=
  strFields ((splitAll row).dropLast)

/-- Remainder of a row after its last comma (the whole row when it has no
comma). -/
def lastSeg (row : List Char) : List Char :=
  (splitAll row).getLastD []

/-- Folding the field handler over a segment list. -/
def applyFields (st : RowScan) (fs : List (List Char)) : RowScan :=
  fs.foldl stepField st

theorem splitAll_ne_nil : ∀ cs : List Char, splitAll cs ≠ []
  | [] => by simp [splitAll]
  | c :: cs => by
    simp only [splitAll]
    split
    · simp
    · split <;> simp

theorem getLastD_irrel {α : Type} (l : List α) (h : l ≠ []) (a b : α) :
    l.getLastD a = l.getLastD b := by
  cases l with
  | nil => simp at h
  | cons x xs => simp [List.getLastD]

theorem applyFields_init (r0 : List Char) (fs : List (List Char)) :
    applyFields ⟨0, "", "", [], r0⟩ fs =
      ⟨(strFields fs).length, (strFields fs).getD 0 "", (strFields fs).getD 1 "",
        (strFields fs).drop 2, r0⟩ := by
  induction fs using List.reverseRecOn with
  | nil => simp [applyFields, strFields]
  | append_singleton fs f ih =>
    simp only [applyFields] at ih ⊢
    rw [List.foldl_append, ih]
    simp only [List.foldl_cons, List.foldl_nil]
    by_cases hf : f = []
    · simp [stepField, hf, strFields]
    · have hstr : strFields (fs ++ [f]) = strFields fs ++ [String.mk f] := by
        simp [strFields, hf]
      rcases hlen : (strFields fs).length with _ | n
      · have h0 : strFields fs = [] := List.length_eq_zero.mp hlen
        simp [stepField, hf, hstr, h0]
      · rcases n with _ | m
        · obtain ⟨a, h1⟩ := List.length_eq_one.mp hlen
          simp [stepField, hf, hstr, h1]
        · have hga : (strFields fs ++ [String.mk f]).getD 0 "" = (strFields fs).getD 0 "" :=
            List.getD_append _ _ _ _ (by omega)
          have hgb : (strFields fs ++ [String.mk f]).getD 1 "" = (strFields fs).getD 1 "" :=
            List.getD_append _ _ _ _ (by omega)
          have hgd : (strFields fs ++ [String.mk f]).drop 2 =
              (strFields fs).drop 2 ++ [String.mk f] :=
            List.drop_append_of_le_length (by omega)
          simp [stepField, hf, hstr, hlen, hga, hgb, hgd]
          exact ⟨(List.getElem_append_left (by omega)).symm,
            (List.getElem_append_left (by omega)).symm⟩

theorem parseLoop_split : ∀ (cs acc : List Char) (st : RowScan),
    parseLoop cs acc st =
      { applyFields st (((splitAll cs).modifyHead (fun s => acc ++ s)).dropLast) with
        rest := ((splitAll cs).modifyHead (fun s => acc ++ s)).getLastD [] }
  | [], acc, st => by
    simp [parseLoop, splitAll, applyFields, List.modifyHead]
  | c :: cs, acc, st => by
    obtain ⟨s, ss, hsc⟩ := List.exists_cons_of_ne_nil (splitAll_ne_nil cs)
    by_cases hc : c = ','
    · rw [parseLoop, if_pos hc, parseLoop_split cs [] (stepField st acc)]
      have hmod : (splitAll cs).modifyHead (fun t => [] ++ t) = splitAll cs := by
        cases splitAll cs <;> simp [List.modifyHead]
      have hsplit : (splitAll (c :: cs)).modifyHead (fun t => acc ++ t) = acc :: s :: ss := by
        simp [splitAll, hc, hsc, List.modifyHead]
      rw [hmod, hsplit, List.dropLast_cons₂, hsc]
      have hrest : (acc :: s :: ss).getLastD [] = (s :: ss).getLastD [] := by
        rw [List.getLastD_cons]
        exact getLastD_irrel _ (by simp) _ _
      rw [hrest]
      simp [applyFields]
    · rw [parseLoop, if_neg hc, parseLoop_split cs (acc ++ [c]) st]
      have h1 : (splitAll cs).modifyHead (fun t => (acc ++ [c]) ++ t) =
          ((acc ++ [c]) ++ s) :: ss := by
        simp [hsc, List.modifyHead]
      have h2 : (splitAll (c :: cs)).modifyHead (fun t => acc ++ t) =
          ((acc ++ [c]) ++ s) :: ss := by
        simp [splitAll, hc, hsc, List.modifyHead, List.append_assoc]
      rw [h1, h2]
termination_by cs => cs.length

theorem rowScan_eq (row : List Char) :
    rowScan row =
      { applyFields ⟨0, "", "", [], []⟩ ((splitAll row).dropLast) with
        rest := lastSeg row } := by
  have h := parseLoop_split row [] ⟨0, "", "", [], []⟩
  have hmod : (splitAll row).modifyHead (fun s => [] ++ s) = splitAll row := by
    cases splitAll row <;> simp [List.modifyHead]
  rw [rowScan, h, hmod, lastSeg]

/-- Components of rowScan in declarative form. -/
theorem rowScan_fields (row : List Char) :
    rowScan row =
      ⟨(termFields row).length, (termFields row).getD 0 "", (termFields row).getD 1 "",
        (termFields row).drop 2, lastSeg row⟩ := by
  rw [rowScan_eq, applyFields_init]
  rfl

/-- Prerequisite strings one row contributes to the validator's
prerequisite set: the nonempty comma-terminated fields past the first two,
plus the captured tail when present. -/
def rowPrereqs (r : List Char) : List String :=
  (rowScan r).prereqs ++ ((finalField r (rowScan r).rest).map String.mk).toList

theorem validateGo_count :
    ∀ (rows : List (List Char)) (courses prereqs : List String) (count : Nat),
    (∀ r ∈ rows, 2 ≤ (rowScan r).fc) →
    (∀ p ∈ prereqs, p ∈ courses ∨ ∃ r ∈ rows, (rowScan r).number = p) →
    (∀ r ∈ rows, ∀ p ∈ rowPrereqs r, p ∈ courses ∨ ∃ r2 ∈ rows, (rowScan r2).number = p) →
    validateGo rows courses prereqs count = ((count + rows.length : Nat) : Int)
  | [], courses, prereqs, count, _, h2, _ => by
    have hall : prereqs.all (fun p => courses.contains p) = true := by
      rw [List.all_eq_true]
      intro p hp
      rcases h2 p hp with hc | ⟨r, hr, _⟩
      · exact List.elem_iff.mpr hc
      · simp at hr
    simp only [validateGo]
    rw [if_pos hall]
    simp
  | r :: rs, courses, prereqs, count, h1, h2, h3 => by
    have hfc : 2 ≤ (rowScan r).fc := h1 r (by simp)
    have h2' : ∀ p ∈ prereqs ++ (rowScan r).prereqs
        ++ ((finalField r (rowScan r).rest).map String.mk).toList,
        p ∈ courses ++ [(rowScan r).number] ∨ ∃ r2 ∈ rs, (rowScan r2).number = p := by
      intro p hp
      have hp2 : p ∈ prereqs ∨ p ∈ rowPrereqs r := by
        simp only [rowPrereqs, List.append_assoc, List.mem_append] at hp ⊢
        tauto
      have base : p ∈ courses ∨ ∃ r2 ∈ r :: rs, (rowScan r2).number = p := by
        rcases hp2 with h | h
        · exact h2 p h
        · exact h3 r (by simp) p h
      rcases base with hc | ⟨r2, hr2, hnum⟩
      · exact Or.inl (List.mem_append_left _ hc)
      · rcases List.mem_cons.mp hr2 with rfl | hr2s
        · exact Or.inl (List.mem_append_right _ (by simp [hnum]))
        · exact Or.inr ⟨r2, hr2s, hnum⟩
    have h3' : ∀ r2 ∈ rs, ∀ p ∈ rowPrereqs r2,
        p ∈ courses ++ [(rowScan r).number] ∨ ∃ r3 ∈ rs, (rowScan r3).number = p := by
      intro r2 hr2 p hp
      rcases h3 r2 (by simp [hr2]) p hp with hc | ⟨r3, hr3, hnum⟩
      · exact Or.inl (List.mem_append_left _ hc)
      · rcases List.mem_cons.mp hr3 with rfl | hr3s
        · exact Or.inl (List.mem_append_right _ (by simp [hnum]))
        · exact Or.inr ⟨r3, hr3s, hnum⟩
    have hrec := validateGo_count rs (courses ++ [(rowScan r).number])
      (prereqs ++ (rowScan r).prereqs
        ++ ((finalField r (rowScan r).rest).map String.mk).toList)
      (count + 1) (fun r2 hr2 => h1 r2 (by simp [hr2])) h2' h3'
    rw [validateGo, if_neg (by omega), if_pos (by omega), hrec]
    simp only [List.length_cons]
    congr 1
    omega

/-! Fields of a row as the specification describes the tokenization: split
on commas, drop empty fields, and capture the final field in full.  These
definitions follow the wording of the specification and are compared with
the code-level definitions above. -/

/-- Fields of a row per the specification wording: every comma-separated
segment, with the final one captured in full, empty fields dropped. -/
def specFields (row : List Char) : List String :=
  ((splitAll row).filter (fun f => f ≠ [])).map String.mk

/-- Well-formed file per the specification wording of claim C3: every row
has at least two nonempty fields, and every prerequisite (fields two and
beyond) occurs as some row's course number (field zero). -/
def specWellFormed (f : String) : Prop :=
  (∀ r ∈ getlineSplit f.data, 2 ≤ (specFields r).length) ∧
  (∀ r ∈ getlineSplit f.data, ∀ p ∈ (specFields r).drop 2,
    ∃ r2 ∈ getlineSplit f.data, (specFields r2).getD 0 "" = p)

/-- C1: the specification example claims that for the file
"CS101,Intro,CS100\nCS100,Basics\n" validation returns 2, load inserts both
records, the sorted listing is CS100 then CS101, and search finds title
"Basics".  The code instead rejects the file: on the row CS100,Basics the
final field Basics is not comma-terminated, so the column loop counts only
one field and ValidateFile aborts with -1 (lines 373-376); main then exits
before any load can happen (lines 397-400).  This theorem evaluates the
embedded validator at that exact file. -/
theorem validateFile_spec_example :
    ValidateFile "CS101,Intro,CS100\nCS100,Basics\n" = -1 := by decide

/-- C2 counterexample: the claim says a final field with no trailing
delimiter is captured in full at its positional role.  On the row
CS100,Basics the final field Basics should become the title; the code
instead leaves the title empty and appends Basic, the final field with its
last character dropped, to the prerequisites (lines 146-150). -/
theorem parseRow_final_field_cex :
    parseRow "CS100,Basics".data = ⟨"CS100", "", ["Basic"]⟩ ∧
    (parseRow "CS100,Basics".data).title ≠ "Basics" := by
  constructor
  · decide
  · decide

/-- C2 amended: only the comma-terminated nonempty fields are positional
(field 0 the number, field 1 the title, fields 2 and beyond prerequisites);
the final field of a line with no trailing delimiter is never assigned a
positional role, but is appended to the prerequisites with its last
character removed, and only when it has at least two characters (for an
empty row, an empty string is appended because the size_t guard wraps). -/
theorem parseRow_positional_terminated (row : List Char) :
    parseRow row =
      ⟨(termFields row).getD 0 "", (termFields row).getD 1 "",
        (termFields row).drop 2
          ++ ((finalField row (lastSeg row)).map String.mk).toList⟩ := by
  simp [parseRow, rowScan_fields]

/-- C3 counterexample: the file "CS100,Basics\n" is well formed in the
specification's sense (its single row has the two nonempty fields CS100 and
Basics and no prerequisites), so the claim requires ValidateFile to return
the row count 1; the code returns -1 because the final field Basics is not
comma-terminated and therefore not counted. -/
theorem validateFile_wellformed_cex :
    specWellFormed "CS100,Basics\n" ∧
    (getlineSplit "CS100,Basics\n".data).length = 1 ∧
    ValidateFile "CS100,Basics\n" = -1 := by
  refine ⟨⟨by decide, by decide⟩, by decide, by decide⟩

/-- C3 amended: ValidateFile returns the exact row count for every file in
which every row has at least two nonempty comma-terminated fields, and
every prerequisite the scan collects (nonempty comma-terminated fields past
the first two, plus the captured tail of a line when present) occurs as the
course number (field 0) of some row. -/
theorem validateFile_rowcount (f : String)
    (h2 : ∀ r ∈ getlineSplit f.data, 2 ≤ (rowScan r).fc)
    (hp : ∀ r ∈ getlineSplit f.data, ∀ p ∈ rowPrereqs r,
      ∃ r2 ∈ getlineSplit f.data, (rowScan r2).number = p) :
    ValidateFile f = ((getlineSplit f.data).length : Int) := by
  rw [ValidateFile,
    validateGo_count _ _ _ _ h2 (by simp)
      (fun r hr p hpr => Or.inr (hp r hr p hpr))]
  simp

/-- Witness for the amended C3 theorem at a concrete well-formed file whose
rows end with a trailing comma, so every field is comma-terminated. -/
theorem validateFile_rowcount_witness :
    ValidateFile "CS1,T,\nCS2,U,CS1,\n" = 2 := by
  have h := validateFile_rowcount "CS1,T,\nCS2,U,CS1,\n" (by decide) (by decide)
  rw [h]
  decide

theorem removeScan_unmatched_prefix (n : String) (c d : Course) (rest : List Course) :
    ∀ pre : List Course, (∀ x ∈ pre, x.number ≠ n) → c.number = n →
    removeScan n (pre ++ c :: d :: rest) =
      (removeScan n rest).map (fun out => pre ++ d :: out)
  | [], _, hc => by
    cases hrs : removeScan n rest <;> simp [removeScan, hc, hrs, Except.map]
  | y :: ys, hpre, hc => by
    have hy : ¬ y.number = n := hpre y (by simp)
    have ih := removeScan_unmatched_prefix n c d rest ys
      (fun x hx => hpre x (by simp [hx])) hc
    rw [List.cons_append, removeScan.eq_def]
    cases hrs : removeScan n rest <;>
      simp [hy, ih, hrs, Except.map]

/-- C4 counterexample: the claim as stated can fail on the program because
the hash evaluated at insert time and the hash evaluated at search time
each start from their own uninitialized accumulator (line 164).  Insert the
record CS100 with title Basics into the default-sized empty table of 179
slots with leftover accumulator value 0, then search CS100 with leftover
accumulator value 1: the two evaluations give different slot indices, the
search scans the wrong slot, and the default-constructed record comes back,
whose title is empty rather than Basics. -/
theorem insert_search_hash_mismatch_cex :
    searchT (fun s => hashCpp 1 s 179)
      (insertT (fun s => hashCpp 0 s 179) (emptyTable 179) ⟨"CS100", "Basics", []⟩)
      "CS100" = ⟨"", "", []⟩ ∧
    (⟨"", "", []⟩ : Course).title ≠ "Basics" := by
  exact ⟨by decide, by decide⟩

/-- C4 amended: for every record with a nonempty number not yet present in
the table, a nonempty title and any prerequisites, and every table state,
inserting the record and then searching its number returns a record with
the same title and the same prerequisite sequence, provided both operations
compute the same in-range slot for the number: the single slot function h
below stands for the hash under the assumption that its two evaluations
start from the same leftover accumulator value; when they start from
different values the slots can differ and the search misses the record. -/
theorem insert_search_roundtrip (h : String → Nat) (t : Table) (c : Course)
    (hb : h c.number < t.length)
    (_hn : c.number ≠ "") (_ht : c.title ≠ "")
    (hu : ∀ slot ∈ t, ∀ x ∈ slot, x.number ≠ c.number) :
    (searchT h (insertT h t c) c.number).title = c.title ∧
    (searchT h (insertT h t c) c.number).prerequisites = c.prerequisites := by
  have hslot : (insertT h t c).getD (h c.number) [] = (t.getD (h c.number) []) ++ [c] := by
    rw [insertT, List.getD_eq_getElem?_getD, List.getElem?_set_eq_of_lt _ hb]
    rfl
  have hslotmem : t.getD (h c.number) [] ∈ t := by
    rw [List.getD_eq_getElem?_getD, List.getElem?_eq_getElem hb]
    exact List.getElem_mem hb
  have hnone : (t.getD (h c.number) []).find? (fun x => x.number = c.number) = none := by
    rw [List.find?_eq_none]
    intro x hx
    simpa using hu _ hslotmem x hx
  rw [searchT, hslot, List.find?_append, hnone]
  simp [List.find?]

/-- Witness for C4 at a concrete empty table of size one. -/
theorem insert_search_roundtrip_witness :
    (searchT (fun _ => 0)
      (insertT (fun _ => 0) (emptyTable 1) ⟨"CS100", "Basics", ["CS050"]⟩)
      "CS100").title = "Basics" ∧
    (searchT (fun _ => 0)
      (insertT (fun _ => 0) (emptyTable 1) ⟨"CS100", "Basics", ["CS050"]⟩)
      "CS100").prerequisites = ["CS050"] :=
  insert_search_roundtrip (fun _ => 0) (emptyTable 1) ⟨"CS100", "Basics", ["CS050"]⟩
    (by decide) (by decide) (by decide) (by decide)

/-- C5: the claim asserts that after remove, search returns not-found for
every reachable table state.  The code instead crashes when the removed
record is the last node of a slot chain: after unlinking it, the loop at
lines 239-247 advances the scan pointer to null and the loop condition
dereferences it.  Here two records collide in a size-one table, and removing
the second (the last chain node) reaches that null dereference, so the
subsequent search never happens. -/
theorem remove_then_search_crash :
    removeT (fun _ => 0)
      (insertT (fun _ => 0)
        (insertT (fun _ => 0) (emptyTable 1) ⟨"CS101", "Intro", []⟩)
        ⟨"CS102", "Data", []⟩) "CS102" = Except.error () := by rfl

/-- C7 counterexample: the claim says only the first matching record of a
slot is removed and every later duplicate remains.  In the slot below the
chain holds CS210 twice; remove deletes the first match, skips the node
right after it, but then keeps scanning and also deletes the second CS210,
so the result drops both duplicates. -/
theorem remove_duplicates_cex :
    removeSlot "CS210"
      [⟨"CS200", "Head", []⟩, ⟨"CS210", "First", []⟩, ⟨"CS211", "Mid", []⟩,
        ⟨"CS210", "Second", []⟩, ⟨"CS212", "Tail", []⟩]
      = Except.ok [⟨"CS200", "Head", []⟩, ⟨"CS211", "Mid", []⟩,
        ⟨"CS212", "Tail", []⟩] := by rfl

/-- C7 amended: a matching head is removed with the whole chain kept, and
in a chain scan the first match is removed and the node immediately after
it is skipped, after which the scan continues on the remaining nodes; hence
a duplicate directly after the first match survives, while duplicates two
or more positions later are also removed (or, for a match in final
position, the scan dereferences null). -/
theorem remove_first_match_scan (n : String) (hd : Course) (chain : List Course) :
    (hd.number = n → removeSlot n (hd :: chain) = Except.ok chain) ∧
    (∀ pre c d rest, chain = pre ++ c :: d :: rest →
      hd.number ≠ n → (∀ x ∈ pre, x.number ≠ n) → c.number = n →
      removeSlot n (hd :: chain) =
        (removeScan n rest).map (fun out => hd :: (pre ++ d :: out))) := by
  constructor
  · intro hh
    simp [removeSlot, hh]
  · intro pre c d rest hch hh hpre hc
    subst hch
    have hs := removeScan_unmatched_prefix n c d rest pre hpre hc
    cases hrs : removeScan n rest <;>
      simp [removeSlot, hh, hs, hrs, Except.map]

/-- Witness for C7 at a concrete slot: the head does not match, the first
chain node matches and is removed, and the duplicate right after it
survives. -/
theorem remove_first_match_scan_witness :
    removeSlot "CS401" [⟨"CS400", "H", []⟩, ⟨"CS401", "A", []⟩, ⟨"CS401", "B", []⟩]
      = Except.ok [⟨"CS400", "H", []⟩, ⟨"CS401", "B", []⟩] := by
  have h := (remove_first_match_scan "CS401" ⟨"CS400", "H", []⟩
      [⟨"CS401", "A", []⟩, ⟨"CS401", "B", []⟩]).2
    [] ⟨"CS401", "A", []⟩ ⟨"CS401", "B", []⟩ [] rfl (by decide) (by decide) rfl
  rw [h]
  rfl

/-- C8: the claim says the hash is deterministic, always mapping the same
number to the same slot for a fixed table size.  The accumulator sum of the
C++ hash is never initialized (line 164), so the slot index also depends on
whatever value that stack slot held: two evaluations on the same key
"CS100" with table size 179 but different leftover stack contents (0 and 1)
give different slot indices. -/
theorem hash_uninitialized_cex :
    hashCpp 0 "CS100" 179 ≠ hashCpp 1 "CS100" 179 := by decide

/-- C9 counterexample: the claim says search signals an absent key by an
explicit not-found result never conflated with a stored empty-titled
record.  The code returns a default-constructed Course on not-found (line
277), and main decides "not found" by testing the title against the empty
string (line 432); a stored record with an empty title yields the same
empty-title signal as an absent key, so main reports it as not found. -/
theorem search_empty_title_conflation_cex :
    searchT (fun _ => 0) (insertT (fun _ => 0) (emptyTable 1) ⟨"CS500", "", []⟩)
        "CS500" = ⟨"CS500", "", []⟩ ∧
    searchT (fun _ => 0) (insertT (fun _ => 0) (emptyTable 1) ⟨"CS500", "", []⟩)
        "CS999" = ⟨"", "", []⟩ ∧
    (searchT (fun _ => 0) (insertT (fun _ => 0) (emptyTable 1) ⟨"CS500", "", []⟩)
        "CS500").title =
      (searchT (fun _ => 0) (insertT (fun _ => 0) (emptyTable 1) ⟨"CS500", "", []⟩)
        "CS999").title := by
  exact ⟨by decide, by decide, by decide⟩

/-- C9 amended: search signals an absent key by returning the
default-constructed record with empty number and empty title; this is the
same value the caller's empty-title test treats as not-found, so a stored
record whose title is empty is indistinguishable from an absent key by that
test (only the number field of the result differs). -/
theorem search_absent_default (h : String → Nat) (t : Table) (n : String)
    (habs : ∀ c ∈ t.getD (h n) [], c.number ≠ n) :
    searchT h t n = ⟨"", "", []⟩ := by
  have hnone : (t.getD (h n) []).find? (fun c => c.number = n) = none := by
    rw [List.find?_eq_none]
    intro x hx
    simpa using habs x hx
  rw [searchT, hnone]
  rfl

/-- Witness for the amended C9 theorem on an empty table. -/
theorem search_absent_default_witness :
    searchT (fun _ => 0) (emptyTable 1) "CS600" = ⟨"", "", []⟩ :=
  search_absent_default (fun _ => 0) (emptyTable 1) "CS600" (by decide)

/-! Quicksort (lines 280-320) over the exported course sequence.  Indices
are natural numbers standing for the C++ ints, which stay nonnegative
throughout the algorithm; vector accesses go through at(), which throws on
an index outside the vector, modeled by a none result.  Helper list lemmas
come first. -/

theorem set_get_self {α : Type} (l : List α) (n : Nat) (h : n < l.length) :
    l.set n (l.get ⟨n, h⟩) = l := by
  apply List.ext_getElem
  · simp
  · intro i hi1 hi2
    by_cases hin : n = i
    · subst hin
      simp
    · rw [List.getElem_set_ne hin]

theorem take_cons_drop_self {α : Type} (l : List α) (n : Nat) (h : n < l.length) :
    l.take n ++ l.get ⟨n, h⟩ :: l.drop (n+1) = l := by
  have h1 := List.set_eq_take_cons_drop (l.get ⟨n, h⟩) h
  have h2 := set_get_self l n h
  simp only [List.get_eq_getElem] at h1 h2 ⊢
  rw [← h1, h2]

theorem set_set_perm {α : Type} (l : List α) (i j : Nat) (hij : i < j) (hj : j < l.length) :
    ((l.set i (l.get ⟨j, hj⟩)).set j (l.get ⟨i, Nat.lt_trans hij hj⟩)).Perm l := by
  have hi : i < l.length := Nat.lt_trans hij hj
  set x := l.get ⟨j, hj⟩ with hx
  set y := l.get ⟨i, hi⟩ with hy
  set A := l.take i with hA
  set D := l.drop (i+1) with hD
  have hAlen : A.length = i := by
    simp [hA]
    omega
  have hDlen : D.length = l.length - (i+1) := by simp [hD]
  have hDidx : j - i - 1 < D.length := by omega
  set B := D.take (j - i - 1) with hB
  set C := D.drop (j - i) with hC
  have hDx : D.get ⟨j - i - 1, hDidx⟩ = x := by
    simp only [hD, hx, List.get_eq_getElem, List.getElem_drop]
    congr 1
    omega
  have hDdecomp : B ++ x :: C = D := by
    have h3 := take_cons_drop_self D (j - i - 1) hDidx
    rw [hDx] at h3
    have hji : j - i - 1 + 1 = j - i := by omega
    rw [hji] at h3
    exact h3
  have hldecomp : l = A ++ y :: D := by
    rw [hA, hD, hy]
    exact (take_cons_drop_self l i hi).symm
  have hL1 : l.set i x = A ++ x :: D := List.set_eq_take_cons_drop x hi
  have hj2 : j < (A ++ x :: D).length := by
    simp only [List.length_append, List.length_cons]
    omega
  have htake : (A ++ x :: D).take j = A ++ x :: B := by
    rw [List.take_append_eq_append_take, List.take_of_length_le (by omega)]
    have hji : j - A.length = (j - i - 1) + 1 := by omega
    rw [hji, List.take_succ_cons, hB]
  have hdrop : (A ++ x :: D).drop (j+1) = C := by
    rw [List.drop_append_eq_append_drop, List.drop_of_length_le (by omega)]
    have hji : j + 1 - A.length = (j - i - 1) + 1 + 1 := by omega
    rw [hji, List.drop_succ_cons, List.nil_append]
    have hji2 : j - i - 1 + 1 = j - i := by omega
    rw [hji2, hC]
  have hL2 : (l.set i x).set j y = (A ++ x :: B) ++ y :: C := by
    rw [hL1, List.set_eq_take_cons_drop y hj2, htake, hdrop]
  rw [hL2, List.append_assoc, List.cons_append]
  conv_rhs => rw [hldecomp, ← hDdecomp]
  refine List.Perm.append_left A ?_
  refine List.Perm.trans (List.Perm.cons x List.perm_middle) ?_
  refine List.Perm.trans (List.Perm.swap y x (B ++ C)) ?_
  exact List.Perm.cons y List.perm_middle.symm

/-- Element access, standing for the in-bounds reads through at(). -/
def getC (l : List Course) (k : Nat) : Course :=
  l.getD k default

/-- Swap at lines 300-302: temp is at(low), at(low) becomes at(high), and
at(high) becomes temp. -/
def swapC (l : List Course) (i j : Nat) : List Course :=
  (l.set i (getC l j)).set j (getC l i)

theorem getC_eq_get (l : List Course) (k : Nat) (h : k < l.length) :
    getC l k = l.get ⟨k, h⟩ := by
  rw [getC, List.getD_eq_getElem?_getD, List.getElem?_eq_getElem h]
  rfl

theorem length_swapC (l : List Course) (i j : Nat) :
    (swapC l i j).length = l.length := by
  simp [swapC]

theorem getC_swapC_fst (l : List Course) (i j : Nat) (hi : i < l.length)
    (hne : i ≠ j) : getC (swapC l i j) i = getC l j := by
  rw [getC, swapC, List.getD_eq_getElem?_getD, List.getElem?_set_ne (Ne.symm hne),
    List.getElem?_set_eq_of_lt _ hi]
  rfl

theorem getC_swapC_snd (l : List Course) (i j : Nat) (hj : j < l.length) :
    getC (swapC l i j) j = getC l i := by
  rw [getC, swapC, List.getD_eq_getElem?_getD,
    List.getElem?_set_eq_of_lt _ (by simpa using hj)]
  rfl

theorem getC_swapC_other (l : List Course) (i j m : Nat) (hmi : m ≠ i)
    (hmj : m ≠ j) : getC (swapC l i j) m = getC l m := by
  rw [getC, swapC, List.getD_eq_getElem?_getD, List.getElem?_set_ne (Ne.symm hmj),
    List.getElem?_set_ne (Ne.symm hmi), ← List.getD_eq_getElem?_getD, ← getC]

theorem swapC_perm (l : List Course) (i j : Nat) (hi : i < l.length)
    (hj : j < l.length) : (swapC l i j).Perm l := by
  rcases Nat.lt_trichotomy i j with h | rfl | h
  · have hp := set_set_perm l i j h hj
    rw [swapC, getC_eq_get l j hj, getC_eq_get l i hi]
    exact hp
  · rw [swapC, List.set_set, getC_eq_get l i hi, set_get_self]
  · have hp := set_set_perm l j i h hi
    rw [swapC, List.set_comm _ _ _ (by omega), getC_eq_get l j hj, getC_eq_get l i hi]
    exact hp

/-- Low scan (lines 288-290): increment low while at(low).number compares
less than the pivot; a low index leaving the vector would make at() throw,
modeled as none. -/
def scanLow (l : List Course) (pivot : String) (low : Nat) : Option Nat :=
  if h : low < l.length then
    if (getC l low).number < pivot then scanLow l pivot (low + 1) else some low
  else none
termination_by l.length - low
decreasing_by omega

/-- High scan (lines 292-294): decrement high while the pivot compares less
than at(high).number; the C++ index is an int, so from 0 it would go to -1
and at() would throw, and an index at or past the end also throws, both
modeled as none. -/
def scanHigh (l : List Course) (pivot : String) (high : Nat) : Option Nat :=
  if high < l.length then
    if pivot < (getC l high).number then
      if h0 : high = 0 then none
      else scanHigh l pivot (high - 1)
    else some high
  else none
termination_by high
decreasing_by omega

theorem scanLow_sound (l : List Course) (pivot : String) :
    ∀ (fuel low lo2 : Nat), l.length - low ≤ fuel →
    scanLow l pivot low = some lo2 →
    low ≤ lo2 ∧ lo2 < l.length ∧ ¬ (getC l lo2).number < pivot ∧
      ∀ m, low ≤ m → m < lo2 → (getC l m).number < pivot := by
  intro fuel
  induction fuel with
  | zero =>
    intro low lo2 hf hs
    rw [scanLow, dif_neg (by omega)] at hs
    exact absurd hs (by simp)
  | succ f ih =>
    intro low lo2 hf hs
    rw [scanLow] at hs
    by_cases hlen : low < l.length
    · rw [dif_pos hlen] at hs
      by_cases hlt : (getC l low).number < pivot
      · rw [if_pos hlt] at hs
        obtain ⟨h1, h2, h3, h4⟩ := ih (low + 1) lo2 (by omega) hs
        refine ⟨by omega, h2, h3, fun m hm1 hm2 => ?_⟩
        rcases Nat.eq_or_lt_of_le hm1 with rfl | hm
        · exact hlt
        · exact h4 m (by omega) hm2
      · rw [if_neg hlt] at hs
        obtain rfl : low = lo2 := by injection hs
        exact ⟨le_refl _, hlen, hlt, fun m hm1 hm2 => absurd (lt_of_le_of_lt hm1 hm2)
          (lt_irrefl _)⟩
    · rw [dif_neg hlen] at hs
      exact absurd hs (by simp)

theorem scanLow_stops (l : List Course) (pivot : String) :
    ∀ (fuel low k : Nat), k - low ≤ fuel → low ≤ k → k < l.length →
    ¬ (getC l k).number < pivot → ∃ lo2, scanLow l pivot low = some lo2 := by
  intro fuel
  induction fuel with
  | zero =>
    intro low k hf hk hklen hstop
    obtain rfl : low = k := by omega
    refine ⟨low, ?_⟩
    rw [scanLow, dif_pos hklen, if_neg hstop]
  | succ f ih =>
    intro low k hf hk hklen hstop
    have hlen : low < l.length := lt_of_le_of_lt hk hklen
    by_cases hlt : (getC l low).number < pivot
    · have hne : low ≠ k := fun he => hstop (he ▸ hlt)
      obtain ⟨lo2, hlo2⟩ := ih (low + 1) k (by omega) (by omega) hklen hstop
      refine ⟨lo2, ?_⟩
      rw [scanLow, dif_pos hlen, if_pos hlt]
      exact hlo2
    · refine ⟨low, ?_⟩
      rw [scanLow, dif_pos hlen, if_neg hlt]

theorem scanHigh_sound (l : List Course) (pivot : String) :
    ∀ (fuel high hi2 : Nat), high ≤ fuel → scanHigh l pivot high = some hi2 →
    hi2 ≤ high ∧ high < l.length ∧ ¬ pivot < (getC l hi2).number ∧
      ∀ m, hi2 < m → m ≤ high → pivot < (getC l m).number := by
  intro fuel
  induction fuel with
  | zero =>
    intro high hi2 hf hs
    obtain rfl : high = 0 := by omega
    rw [scanHigh] at hs
    by_cases hlen : 0 < l.length
    · rw [if_pos hlen] at hs
      by_cases hlt : pivot < (getC l 0).number
      · rw [if_pos hlt, dif_pos rfl] at hs
        exact absurd hs (by simp)
      · rw [if_neg hlt] at hs
        obtain rfl : (0 : Nat) = hi2 := by injection hs
        exact ⟨le_refl _, hlen, hlt, fun m hm1 hm2 => by omega⟩
    · rw [if_neg hlen] at hs
      exact absurd hs (by simp)
  | succ f ih =>
    intro high hi2 hf hs
    rw [scanHigh] at hs
    by_cases hlen : high < l.length
    · rw [if_pos hlen] at hs
      by_cases hlt : pivot < (getC l high).number
      · rw [if_pos hlt] at hs
        by_cases h0 : high = 0
        · rw [dif_pos h0] at hs
          exact absurd hs (by simp)
        · rw [dif_neg h0] at hs
          obtain ⟨h1, _, h3, h4⟩ := ih (high - 1) hi2 (by omega) hs
          refine ⟨by omega, hlen, h3, fun m hm1 hm2 => ?_⟩
          rcases Nat.eq_or_lt_of_le hm2 with rfl | hm
          · exact hlt
          · exact h4 m hm1 (by omega)
      · rw [if_neg hlt] at hs
        obtain rfl : high = hi2 := by injection hs
        exact ⟨le_refl _, hlen, hlt, fun m hm1 hm2 => by omega⟩
    · rw [if_neg hlen] at hs
      exact absurd hs (by simp)

theorem scanHigh_stops (l : List Course) (pivot : String) :
    ∀ (fuel high k : Nat), high - k ≤ fuel → k ≤ high → high < l.length →
    ¬ pivot < (getC l k).number → ∃ hi2, scanHigh l pivot high = some hi2 := by
  intro fuel
  induction fuel with
  | zero =>
    intro high k hf hk hlen hstop
    obtain rfl : high = k := by omega
    refine ⟨high, ?_⟩
    rw [scanHigh, if_pos hlen, if_neg hstop]
  | succ f ih =>
    intro high k hf hk hlen hstop
    by_cases hlt : pivot < (getC l high).number
    · have hne : high ≠ k := fun he => hstop (he ▸ hlt)
      have h0 : high ≠ 0 := by omega
      obtain ⟨hi2, hhi2⟩ := ih (high - 1) k (by omega) (by omega) (by omega) hstop
      refine ⟨hi2, ?_⟩
      rw [scanHigh, if_pos hlen, if_pos hlt, dif_neg h0]
      exact hhi2
    · refine ⟨high, ?_⟩
      rw [scanHigh, if_pos hlen, if_neg hlt]

/-- Partition loop (lines 285-307): scan both pointers inward, return the
high pointer when they cross (lines 296-297 and 308), otherwise swap the
out-of-order pair, advance both pointers, and continue. -/
def partitionLoop (l : List Course) (pivot : String) (low high : Nat) :
    Option (List Course × Nat) :=
  match h1 : scanLow l pivot low, h2 : scanHigh l pivot high with
  | some lo2, some hi2 =>
    if hgeq : lo2 ≥ hi2 then some (l, hi2)
    else partitionLoop (swapC l lo2 hi2) pivot (lo2 + 1) (hi2 - 1)
  | some _, none => none
  | none, _ => none
termination_by high - low
decreasing_by
  have hb1 := (scanLow_sound l pivot l.length low lo2 (by omega) h1).1
  have hb2 := (scanHigh_sound l pivot high high hi2 (le_refl _) h2).1
  omega

theorem partition_cross (l : List Course) (pivot : String) (lo hi low high lo2 hi2 : Nat)
    (_hlow : lo ≤ low) (hhigh : high ≤ hi) (hhi : hi < l.length)
    (hA : ∀ m, lo ≤ m → m < low → (getC l m).number ≤ pivot)
    (hB : ∀ m, high < m → m ≤ hi → pivot ≤ (getC l m).number)
    (hD : ∃ k, lo ≤ k ∧ k ≤ high ∧ ¬ pivot < (getC l k).number)
    (hE : (∃ k, low ≤ k ∧ k < hi ∧ ¬ (getC l k).number < pivot) ∨ high < hi)
    (hsl : scanLow l pivot low = some lo2)
    (hsh : scanHigh l pivot high = some hi2)
    (hcross : hi2 ≤ lo2) :
    lo ≤ hi2 ∧ hi2 < hi ∧
    (∀ m, lo ≤ m → m ≤ hi2 → (getC l m).number ≤ pivot) ∧
    (∀ m, hi2 < m → m ≤ hi → pivot ≤ (getC l m).number) := by
  obtain ⟨SL1, SL2, SL3, SL4⟩ := scanLow_sound l pivot l.length low lo2 (by omega) hsl
  obtain ⟨SH1, SH2, SH3, SH4⟩ := scanHigh_sound l pivot high high hi2 (le_refl _) hsh
  obtain ⟨k2, hk2lo, hk2hi, hk2stop⟩ := hD
  have hk2le : k2 ≤ hi2 := by
    by_contra hcon
    exact hk2stop (SH4 k2 (by omega) hk2hi)
  have hploc : lo ≤ hi2 := le_trans hk2lo hk2le
  have hphi : hi2 < hi := by
    rcases hE with ⟨k, hklow, hkhi, hkstop⟩ | hhilt
    · have hklo2 : lo2 ≤ k := by
        by_contra hcon
        exact hkstop (SL4 k hklow (by omega))
      omega
    · omega
  refine ⟨hploc, hphi, ?_, ?_⟩
  · intro m hm1 hm2
    by_cases hmlow : m < low
    · exact hA m hm1 hmlow
    · by_cases hmlo2 : m < lo2
      · exact le_of_lt (SL4 m (by omega) hmlo2)
      · have hmeq : m = hi2 := by omega
        subst hmeq
        exact not_lt.mp SH3
  · intro m hm1 hm2
    by_cases hmhigh : m ≤ high
    · exact le_of_lt (SH4 m hm1 hmhigh)
    · exact hB m (by omega) hm2

theorem partitionLoop_spec (pivot : String) (lo hi : Nat) :
    ∀ (fuel : Nat) (l : List Course) (low high : Nat), high - low ≤ fuel →
    lo ≤ low → low ≤ hi → lo ≤ high → high ≤ hi → hi < l.length →
    (∀ m, lo ≤ m → m < low → (getC l m).number ≤ pivot) →
    (∀ m, high < m → m ≤ hi → pivot ≤ (getC l m).number) →
    (∃ k, low ≤ k ∧ k ≤ hi ∧ ¬ (getC l k).number < pivot) →
    (∃ k, lo ≤ k ∧ k ≤ high ∧ ¬ pivot < (getC l k).number) →
    ((∃ k, low ≤ k ∧ k < hi ∧ ¬ (getC l k).number < pivot) ∨ high < hi) →
    ∃ l2 p, partitionLoop l pivot low high = some (l2, p) ∧
      lo ≤ p ∧ p < hi ∧ l2.length = l.length ∧
      (∀ m, m < lo ∨ hi < m → getC l2 m = getC l m) ∧
      l2.Perm l ∧
      (∀ m, lo ≤ m → m ≤ p → (getC l2 m).number ≤ pivot) ∧
      (∀ m, p < m → m ≤ hi → pivot ≤ (getC l2 m).number) := by
  intro fuel
  induction fuel with
  | zero =>
    intro l low high hf hlow hlowhi hhilo hhigh hhi hA hB hC hD hE
    obtain ⟨kc, hkc1, hkc2, hkc3⟩ := hC
    obtain ⟨kd, hkd1, hkd2, hkd3⟩ := hD
    obtain ⟨lo2, hsl⟩ := scanLow_stops l pivot kc low kc (by omega) hkc1 (by omega) hkc3
    obtain ⟨hi2, hsh⟩ := scanHigh_stops l pivot high high kd (by omega) hkd2 (by omega) hkd3
    obtain ⟨SL1, _, _, _⟩ := scanLow_sound l pivot l.length low lo2 (by omega) hsl
    obtain ⟨SH1, _, _, _⟩ := scanHigh_sound l pivot high high hi2 (le_refl _) hsh
    have hcross : hi2 ≤ lo2 := by omega
    obtain ⟨hp1, hp2, hp3, hp4⟩ := partition_cross l pivot lo hi low high lo2 hi2
      hlow hhigh hhi hA hB ⟨kd, hkd1, hkd2, hkd3⟩ hE hsl hsh hcross
    refine ⟨l, hi2, ?_, hp1, hp2, rfl, fun m _ => rfl, List.Perm.refl l, hp3, hp4⟩
    rw [partitionLoop.eq_def]
    split
    · rename_i lo3 hi3 h1 h2
      rw [hsl] at h1
      rw [hsh] at h2
      injection h1 with h1e
      injection h2 with h2e
      subst h1e
      subst h2e
      rw [dif_pos hcross]
    · rename_i z h1 h2
      rw [hsh] at h2
      exact absurd h2 (by simp)
    · rename_i h1
      rw [hsl] at h1
      exact absurd h1 (by simp)
  | succ f ih =>
    intro l low high hf hlow hlowhi hhilo hhigh hhi hA hB hC hD hE
    obtain ⟨kc, hkc1, hkc2, hkc3⟩ := hC
    obtain ⟨kd, hkd1, hkd2, hkd3⟩ := hD
    obtain ⟨lo2, hsl⟩ := scanLow_stops l pivot kc low kc (by omega) hkc1 (by omega) hkc3
    obtain ⟨hi2, hsh⟩ := scanHigh_stops l pivot high high kd (by omega) hkd2 (by omega) hkd3
    obtain ⟨SL1, SL2, SL3, SL4⟩ := scanLow_sound l pivot l.length low lo2 (by omega) hsl
    obtain ⟨SH1, SH2, SH3, SH4⟩ := scanHigh_sound l pivot high high hi2 (le_refl _) hsh
    have hlo2hi : lo2 ≤ hi := by
      by_contra hcon
      exact hkc3 (SL4 kc hkc1 (by omega))
    by_cases hcross : hi2 ≤ lo2
    · obtain ⟨hp1, hp2, hp3, hp4⟩ := partition_cross l pivot lo hi low high lo2 hi2
        hlow hhigh hhi hA hB ⟨kd, hkd1, hkd2, hkd3⟩ hE hsl hsh hcross
      refine ⟨l, hi2, ?_, hp1, hp2, rfl, fun m _ => rfl, List.Perm.refl l, hp3, hp4⟩
      rw [partitionLoop.eq_def]
      split
      · rename_i lo3 hi3 h1 h2
        rw [hsl] at h1
        rw [hsh] at h2
        injection h1 with h1e
        injection h2 with h2e
        subst h1e
        subst h2e
        rw [dif_pos hcross]
      · rename_i z h1 h2
        rw [hsh] at h2
        exact absurd h2 (by simp)
      · rename_i h1
        rw [hsl] at h1
        exact absurd h1 (by simp)
    · have hlt : lo2 < hi2 := by omega
      have hi2len : hi2 < l.length := by omega
      have hlo2ne : lo2 ≠ hi2 := by omega
      have hg1 : getC (swapC l lo2 hi2) lo2 = getC l hi2 :=
        getC_swapC_fst l lo2 hi2 SL2 hlo2ne
      have hg2 : getC (swapC l lo2 hi2) hi2 = getC l lo2 :=
        getC_swapC_snd l lo2 hi2 hi2len
      have hlen3 : (swapC l lo2 hi2).length = l.length := length_swapC l lo2 hi2
      have hA2 : ∀ m, lo ≤ m → m < lo2 + 1 →
          (getC (swapC l lo2 hi2) m).number ≤ pivot := by
        intro m hm1 hm2
        by_cases hmeq : m = lo2
        · subst hmeq
          rw [hg1]
          exact not_lt.mp SH3
        · rw [getC_swapC_other l lo2 hi2 m hmeq (by omega)]
          by_cases hmlow : m < low
          · exact hA m hm1 hmlow
          · exact le_of_lt (SL4 m (by omega) (by omega))
      have hB2 : ∀ m, hi2 - 1 < m → m ≤ hi →
          pivot ≤ (getC (swapC l lo2 hi2) m).number := by
        intro m hm1 hm2
        by_cases hmeq : m = hi2
        · subst hmeq
          rw [hg2]
          exact not_lt.mp SL3
        · rw [getC_swapC_other l lo2 hi2 m (by omega) hmeq]
          by_cases hmhigh : m ≤ high
          · exact le_of_lt (SH4 m (by omega) hmhigh)
          · exact hB m (by omega) hm2
      have hC2 : ∃ k, lo2 + 1 ≤ k ∧ k ≤ hi ∧
          ¬ (getC (swapC l lo2 hi2) k).number < pivot := by
        refine ⟨hi2, by omega, by omega, ?_⟩
        rw [hg2]
        exact SL3
      have hD2 : ∃ k, lo ≤ k ∧ k ≤ hi2 - 1 ∧
          ¬ pivot < (getC (swapC l lo2 hi2) k).number := by
        refine ⟨lo2, by omega, by omega, ?_⟩
        rw [hg1]
        exact SH3
      obtain ⟨l2, p, heq, hq1, hq2, hq3, hq4, hq5, hq6, hq7⟩ :=
        ih (swapC l lo2 hi2) (lo2 + 1) (hi2 - 1) (by omega) (by omega) (by omega)
          (by omega) (by omega) (by omega) hA2 hB2 hC2 hD2 (Or.inr (by omega))
      refine ⟨l2, p, ?_, hq1, hq2, by omega, ?_, ?_, hq6, hq7⟩
      · rw [partitionLoop.eq_def]
        split
        · rename_i lo3 hi3 h1 h2
          rw [hsl] at h1
          rw [hsh] at h2
          injection h1 with h1e
          injection h2 with h2e
          subst h1e
          subst h2e
          rw [dif_neg (by omega)]
          exact heq
        · rename_i z h1 h2
          rw [hsh] at h2
          exact absurd h2 (by simp)
        · rename_i h1
          rw [hsl] at h1
          exact absurd h1 (by simp)
      · intro m hm
        rw [hq4 m hm]
        exact getC_swapC_other l lo2 hi2 m (by omega) (by omega)
      · exact List.Perm.trans hq5 (swapC_perm l lo2 hi2 SL2 hi2len)

/-- Partition (lines 281-309): pick the middle element by value as the
pivot (lines 283-284, where at() throws for an index outside the vector),
then run the partition loop. -/
def partitionFn (l : List Course) (low high : Nat) : Option (List Course × Nat) :=
  if h : low + (high - low) / 2 < l.length then
    partitionLoop l (getC l (low + (high - low) / 2)).number low high
  else none

theorem partitionFn_spec (l : List Course) (low high : Nat)
    (hlh : low < high) (hhi : high < l.length) :
    ∃ l2 p pivot, partitionFn l low high = some (l2, p) ∧ low ≤ p ∧ p < high ∧
      l2.length = l.length ∧
      (∀ m, m < low ∨ high < m → getC l2 m = getC l m) ∧
      l2.Perm l ∧
      (∀ m, low ≤ m → m ≤ p → (getC l2 m).number ≤ pivot) ∧
      (∀ m, p < m → m ≤ high → pivot ≤ (getC l2 m).number) := by
  have hmidlow : low ≤ low + (high - low) / 2 := by omega
  have hmidhigh : low + (high - low) / 2 < high := by omega
  have hmidlen : low + (high - low) / 2 < l.length := by omega
  obtain ⟨l2, p, heq, h1, h2, h3, h4, h5, h6, h7⟩ :=
    partitionLoop_spec (getC l (low + (high - low) / 2)).number low high (high - low)
      l low high (le_refl _) (le_refl _) (le_of_lt hlh) (le_of_lt hlh) (le_refl _) hhi
      (fun m hm1 hm2 => absurd (lt_of_le_of_lt hm1 hm2) (lt_irrefl _))
      (fun m hm1 hm2 => absurd (lt_of_lt_of_le hm1 hm2) (lt_irrefl _))
      ⟨low + (high - low) / 2, hmidlow, by omega, lt_irrefl _⟩
      ⟨low + (high - low) / 2, hmidlow, by omega, lt_irrefl _⟩
      (Or.inl ⟨low + (high - low) / 2, hmidlow, hmidhigh, lt_irrefl _⟩)
  refine ⟨l2, p, (getC l (low + (high - low) / 2)).number, ?_, h1, h2, h3, h4, h5, h6, h7⟩
  rw [partitionFn, dif_pos hmidlen]
  exact heq

theorem scanHigh_some_high_lt (l : List Course) (pivot : String) (high hi2 : Nat)
    (h : scanHigh l pivot high = some hi2) : high < l.length := by
  by_contra hc
  rw [scanHigh, if_neg hc] at h
  exact absurd h (by simp)

theorem partitionFn_bounds (l : List Course) (low high : Nat) (l2 : List Course)
    (p : Nat) (hlh : low < high) (heq : partitionFn l low high = some (l2, p)) :
    low ≤ p ∧ p < high := by
  by_cases hmid : low + (high - low) / 2 < l.length
  · rw [partitionFn, dif_pos hmid] at heq
    have hhigh : high < l.length := by
      rw [partitionLoop.eq_def] at heq
      split at heq
      · rename_i lo3 hi3 h1 h2
        exact scanHigh_some_high_lt l _ high hi3 h2
      · exact absurd heq (by simp)
      · exact absurd heq (by simp)
    obtain ⟨l3, p3, pivot, heq3, h1, h2, _⟩ := partitionFn_spec l low high hlh hhigh
    rw [partitionFn, dif_pos hmid] at heq3
    rw [heq] at heq3
    injection heq3 with he
    obtain ⟨rfl, rfl⟩ := Prod.mk.inj he
    exact ⟨h1, h2⟩
  · rw [partitionFn, dif_neg hmid] at heq
    exact absurd heq (by simp)

/-- Quicksort (lines 280-320): return when the range holds at most one
element (lines 311-313), otherwise partition and recurse on the low part up
to the crossing point and on the high part after it (lines 315-319). -/
def quicksortGo (l : List Course) (low high : Nat) : Option (List Course) :=
  if hbase : low ≥ high then some l
  else
    match hpart : partitionFn l low high with
    | some (l2, p) =>
      match quicksortGo l2 low p with
      | some l3 => quicksortGo l3 (p + 1) high
      | none => none
    | none => none
termination_by high - low
decreasing_by
  · have := partitionFn_bounds l low high l2 p (by omega) hpart
    omega
  · have := partitionFn_bounds l low high l2 p (by omega) hpart
    omega

/-- Contiguous slice of the positions a through b. -/
def sliceL (l : List Course) (a b : Nat) : List Course :=
  (l.drop a).take (b + 1 - a)

theorem sliceL_def (l : List Course) (a b : Nat) :
    sliceL l a b = (l.drop a).take (b + 1 - a) := rfl

theorem mem_sliceL (l : List Course) (a b : Nat) (x : Course) :
    x ∈ sliceL l a b ↔ ∃ m, a ≤ m ∧ m ≤ b ∧ m < l.length ∧ getC l m = x := by
  rw [sliceL_def]
  constructor
  · intro hx
    rw [List.mem_iff_getElem] at hx
    obtain ⟨i, hi, hix⟩ := hx
    have hi2 : i < b + 1 - a ∧ a + i < l.length := by
      simp at hi
      omega
    refine ⟨a + i, by omega, by omega, hi2.2, ?_⟩
    rw [getC_eq_get l (a + i) hi2.2]
    simp only [List.get_eq_getElem]
    rw [← hix]
    rw [List.getElem_take]
    rw [List.getElem_drop]
  · rintro ⟨m, hm1, hm2, hm3, hmx⟩
    rw [List.mem_iff_getElem]
    have hlen : m - a < ((l.drop a).take (b + 1 - a)).length := by
      simp
      omega
    refine ⟨m - a, hlen, ?_⟩
    rw [List.getElem_take, List.getElem_drop, ← hmx, getC_eq_get l m hm3]
    simp only [List.get_eq_getElem]
    have hidx : a + (m - a) = m := by omega
    simp only [hidx]

theorem sliceL_multiset_eq (lA lB : List Course) (a b : Nat)
    (hperm : lA.Perm lB) (hlen : lA.length = lB.length)
    (hout : ∀ m, m < a ∨ b < m → getC lA m = getC lB m) :
    (sliceL lA a b : Multiset Course) = (sliceL lB a b : Multiset Course) := by
  have hdecomp : ∀ (l : List Course),
      l = l.take a ++ (sliceL l a b ++ l.drop (a + (b + 1 - a))) := by
    intro l
    conv_lhs => rw [← List.take_append_drop a l]
    congr 1
    conv_lhs => rw [← List.take_append_drop (b + 1 - a) (l.drop a)]
    rw [sliceL_def, List.drop_drop]
  have htake : lA.take a = lB.take a := by
    apply List.ext_getElem
    · simp [hlen]
    · intro i hi1 hi2
      rw [List.getElem_take, List.getElem_take]
      have hia : i < a := by
        simp at hi1
        omega
      have hilt : i < lA.length := by
        simp at hi1
        omega
      have h := hout i (Or.inl hia)
      rw [getC_eq_get lA i hilt, getC_eq_get lB i (by omega)] at h
      simpa using h
  have hdrop : lA.drop (a + (b + 1 - a)) = lB.drop (a + (b + 1 - a)) := by
    apply List.ext_getElem
    · simp [hlen]
    · intro i hi1 hi2
      rw [List.getElem_drop, List.getElem_drop]
      have hilt : a + (b + 1 - a) + i < lA.length := by
        simp at hi1
        omega
      have hib : b < a + (b + 1 - a) + i := by omega
      have h := hout (a + (b + 1 - a) + i) (Or.inr hib)
      rw [getC_eq_get lA _ hilt, getC_eq_get lB _ (by omega)] at h
      simpa using h
  have hmul : (lA : Multiset Course) = (lB : Multiset Course) :=
    Multiset.coe_eq_coe.mpr hperm
  rw [hdecomp lA, hdecomp lB] at hmul
  have hco : ∀ (x y z : List Course),
      ((x ++ (y ++ z) : List Course) : Multiset Course)
        = (x : Multiset Course) + ((y : Multiset Course) + (z : Multiset Course)) := by
    intro x y z
    rfl
  rw [hco, hco, htake, hdrop] at hmul
  have h1 := add_left_cancel hmul
  exact add_right_cancel h1

theorem slice_all_transport (P : Course → Prop) (lA lB : List Course) (a b : Nat)
    (hperm : lA.Perm lB) (hlen : lA.length = lB.length)
    (hout : ∀ m, m < a ∨ b < m → getC lA m = getC lB m)
    (hP : ∀ m, a ≤ m → m ≤ b → m < lB.length → P (getC lB m)) :
    ∀ m, a ≤ m → m ≤ b → m < lA.length → P (getC lA m) := by
  intro m hm1 hm2 hm3
  have hmem : getC lA m ∈ sliceL lA a b :=
    (mem_sliceL lA a b _).mpr ⟨m, hm1, hm2, hm3, rfl⟩
  have hms := sliceL_multiset_eq lA lB a b hperm hlen hout
  have hmemB : getC lA m ∈ sliceL lB a b := by
    have hm : getC lA m ∈ (sliceL lA a b : Multiset Course) := by
      exact_mod_cast hmem
    rw [hms] at hm
    exact_mod_cast hm
  obtain ⟨m2, h1, h2, h3, h4⟩ := (mem_sliceL lB a b _).mp hmemB
  rw [← h4]
  exact hP m2 h1 h2 h3

/-- Non-decreasing course numbers over the index range a through b. -/
def SortedRange (l : List Course) (a b : Nat) : Prop :=
  ∀ i j, a ≤ i → i ≤ j → j ≤ b → j < l.length →
    (getC l i).number ≤ (getC l j).number

theorem quicksortGo_spec :
    ∀ (fuel : Nat) (l : List Course) (low high : Nat), high - low ≤ fuel →
    (low < high → high < l.length) →
    ∃ l2, quicksortGo l low high = some l2 ∧ l2.length = l.length ∧ l2.Perm l ∧
      (∀ m, m < low ∨ high < m → getC l2 m = getC l m) ∧
      SortedRange l2 low high := by
  intro fuel
  induction fuel with
  | zero =>
    intro l low high hf _
    have hbase : low ≥ high := by omega
    refine ⟨l, ?_, rfl, List.Perm.refl l, fun m _ => rfl, ?_⟩
    · rw [quicksortGo.eq_def, dif_pos hbase]
    · intro i j h1 h2 h3 _
      have hij : i = j := by omega
      subst hij
      exact le_refl _
  | succ f ih =>
    intro l low high hf hlh
    by_cases hbase : low ≥ high
    · refine ⟨l, ?_, rfl, List.Perm.refl l, fun m _ => rfl, ?_⟩
      · rw [quicksortGo.eq_def, dif_pos hbase]
      · intro i j h1 h2 h3 _
        have hij : i = j := by omega
        subst hij
        exact le_refl _
    · have hlh2 : low < high := by omega
      have hhi : high < l.length := hlh hlh2
      obtain ⟨l2, p, pivot, hpeq, hp1, hp2, hplen, hpout, hpperm, hpleft, hpright⟩ :=
        partitionFn_spec l low high hlh2 hhi
      obtain ⟨l3, hq1eq, hq1len, hq1perm, hq1out, hq1sorted⟩ :=
        ih l2 low p (by omega) (fun _ => by rw [hplen]; omega)
      obtain ⟨l4, hq2eq, hq2len, hq2perm, hq2out, hq2sorted⟩ :=
        ih l3 (p + 1) high (by omega) (fun _ => by rw [hq1len, hplen]; omega)
      have hL4 : l4.length = l.length := by rw [hq2len, hq1len, hplen]
      have hL3 : l3.length = l.length := by rw [hq1len, hplen]
      refine ⟨l4, ?_, hL4,
        List.Perm.trans hq2perm (List.Perm.trans hq1perm hpperm), ?_, ?_⟩
      · rw [quicksortGo.eq_def, dif_neg hbase]
        split
        · rename_i l2x px h1
          rw [hpeq] at h1
          injection h1 with h1e
          obtain ⟨rfl, rfl⟩ := Prod.mk.inj h1e
          split
          · rename_i l3x h2
            rw [hq1eq] at h2
            injection h2 with h2e
            subst h2e
            exact hq2eq
          · rename_i h2
            rw [hq1eq] at h2
            exact absurd h2 (by simp)
        · rename_i h1
          rw [hpeq] at h1
          exact absurd h1 (by simp)
      · intro m hm
        have hm2 : m < p + 1 ∨ high < m := by
          rcases hm with h | h
          · exact Or.inl (by omega)
          · exact Or.inr h
        have hm3 : m < low ∨ p < m := by
          rcases hm with h | h
          · exact Or.inl h
          · exact Or.inr (by omega)
        rw [hq2out m hm2, hq1out m hm3, hpout m hm]
      · have hl3left : ∀ m, low ≤ m → m ≤ p → m < l3.length →
            (getC l3 m).number ≤ pivot := by
          refine slice_all_transport (fun c => c.number ≤ pivot) l3 l2 low p
            hq1perm hq1len hq1out ?_
          intro m h1 h2 _
          exact hpleft m h1 h2
        have hl3right : ∀ m, p < m → m ≤ high → pivot ≤ (getC l3 m).number := by
          intro m h1 h2
          rw [hq1out m (Or.inr h1)]
          exact hpright m h1 h2
        have hl4left : ∀ m, low ≤ m → m ≤ p → (getC l4 m).number ≤ pivot := by
          intro m h1 h2
          rw [hq2out m (Or.inl (by omega))]
          exact hl3left m h1 h2 (by omega)
        have hl4right : ∀ m, p + 1 ≤ m → m ≤ high → m < l4.length →
            pivot ≤ (getC l4 m).number := by
          refine slice_all_transport (fun c => pivot ≤ c.number) l4 l3 (p + 1) high
            hq2perm hq2len hq2out ?_
          intro m h1 h2 _
          exact hl3right m (by omega) h2
        have hl4sortedleft : SortedRange l4 low p := by
          intro i j h1 h2 h3 h4
          rw [hq2out i (Or.inl (by omega)), hq2out j (Or.inl (by omega))]
          exact hq1sorted i j h1 h2 h3 (by omega)
        intro i j h1 h2 h3 h4
        by_cases hj : j ≤ p
        · exact hl4sortedleft i j h1 h2 hj h4
        · by_cases hi2 : i ≤ p
          · exact le_trans (hl4left i h1 hi2) (hl4right j (by omega) h3 h4)
          · exact hq2sorted i j (by omega) h2 h3 h4

/-- Menu option 2 (lines 419-426): export the table to a vector and sort it
over the full index range 0 through size minus one; for an empty vector the
size_t subtraction passed through the int parameter makes highIndex
negative, so the base case returns at once, which the truncated natural
subtraction models faithfully. -/
def listSorted (t : Table) : Option (List Course) :=
  quicksortGo (toVectorT t) 0 ((toVectorT t).length - 1)

/-- C6: for every table state, exporting all records with toVector and
sorting them with Quicksort over the full index range yields a sequence
whose course numbers are non-decreasing in the lexicographic string order
and whose multiset of course numbers equals the multiset of numbers of the
records stored in the table: nothing is lost or duplicated. -/
theorem export_sort_sorted_perm (t : Table) :
    ∃ out, listSorted t = some out ∧
      List.Sorted (fun a b => a ≤ b) (out.map (fun c => c.number)) ∧
      ((out.map (fun c => c.number) : List String) : Multiset String)
        = (((toVectorT t).map (fun c => c.number) : List String) : Multiset String) := by
  obtain ⟨out, heq, hlen, hperm, _, hsorted⟩ :=
    quicksortGo_spec ((toVectorT t).length - 1) (toVectorT t) 0
      ((toVectorT t).length - 1) (by omega) (fun h => by omega)
  refine ⟨out, heq, ?_, ?_⟩
  · refine List.pairwise_iff_getElem.mpr ?_
    intro i j hi hj hij
    rw [List.getElem_map, List.getElem_map]
    have hjlen : j < out.length := by simpa using hj
    have hijle : i ≤ j := le_of_lt hij
    have hs := hsorted i j (Nat.zero_le _) hijle (by omega) hjlen
    rw [getC_eq_get out i (lt_of_le_of_lt hijle hjlen), getC_eq_get out j hjlen] at hs
    simpa using hs
  · exact Multiset.coe_eq_coe.mpr (hperm.map (fun c => c.number))

/-- C10: the claim asserts the remove chain scan never dereferences a null
pointer.  Build a size-one table by inserting three records (head plus a
two-node chain) and remove the number held by the last chain node: the scan
unlinks it, advances the scan pointer to the now-null next pointer, and the
loop condition at line 239 dereferences null, modeled as the error
result. -/
theorem remove_chain_null_deref :
    removeT (fun _ => 0)
      (insertT (fun _ => 0)
        (insertT (fun _ => 0)
          (insertT (fun _ => 0) (emptyTable 1) ⟨"CS301", "Sys", []⟩)
          ⟨"CS302", "Net", []⟩)
        ⟨"CS303", "Sec", []⟩) "CS303" = Except.error () := by rfl
